import Mathlib

/-!
Verification of the HAMT core of `struct-factory`.

The trie lives in `src/internal/hamt` (bitmap.go, leaf_node.go,
collision_node.go, bitmap_indexed_node.go) and the structural hashing
function in `src/internal/hamt/hash.go`, with a helper-decomposed rewrite
of the hash in `src/unnamed/part_001`.

Shallow embedding conventions:
* Go `uint64` values are `Nat` with explicit `% 2 ^ 64` (or masking) where
  overflow matters; all bitmap values are kept below `2 ^ 64` by the
  well-formedness predicate.
* Go pointers are modelled by tagging every node with an allocation
  address `addr : Nat`; mutating operations thread an allocation counter
  and stamp fresh nodes with it, so Go's pointer comparison `a == b`
  becomes comparison of address tags.
* Go panics (`Bitmap.Position` with `offset > 10`, out-of-range slice
  indexing, `make` with negative length) are modelled by an outer
  `Option`: `none` is an aborted (panicking) execution.
-/

namespace StructFactory

/-! ## FNV-1a (hash/fnv, 64-bit) -/

/-- FNV-1a 64-bit offset basis; `fnv.New64a()` starts in this state and
`Reset` returns to it, so `Sum64` right after a reset yields this value. -/
def fnvBasis : Nat := 14695981039346656037

/-- FNV-1a 64-bit prime. -/
def fnvPrime : Nat := 1099511628211

/-- One step of FNV-1a: xor the byte in, multiply by the prime (mod 2^64). -/
def fnvByte (acc b : Nat) : Nat := ((acc ^^^ b) * fnvPrime) % (2 ^ 64)

/-- Feed a byte sequence through the FNV-1a accumulator. -/
def fnvFold (acc : Nat) (bytes : List Nat) : Nat := bytes.foldl fnvByte acc

/-- Little-endian 8-byte encoding of a `uint64`, as written by
`binary.Write(hasher, binary.LittleEndian, x)` and
`binary.LittleEndian.PutUint64`. -/
def le8 (n : Nat) : List Nat :=
  [n % 256, n / 2 ^ 8 % 256, n / 2 ^ 16 % 256, n / 2 ^ 24 % 256,
   n / 2 ^ 32 % 256, n / 2 ^ 40 % 256, n / 2 ^ 48 % 256, n / 2 ^ 56 % 256]

/-- Byte sequence of a Go string: `[]byte(s)` is the UTF-8 encoding of the
character sequence. -/
def strBytes (s : String) : List Nat :=
  (s.data.foldr (fun c acc => String.utf8EncodeChar c ++ acc) []).map (fun b => b.toNat)

/-! ## Bitmap (src/internal/hamt/bitmap.go) -/

/-- `shiftWidth`: the trie consumes 6 bits of hash per level. -/
def shiftWidth : Nat := 6

/-- `maxOffset`: maximum valid depth parameter (64-bit hash / 6-bit chunks). -/
def maxOffset : Nat := 10

/-- `mask64 = ^uint64(0)`. -/
def mask64 : Nat := 2 ^ 64 - 1

/-- `bandMask() = (1 << shiftWidth) - 1`. -/
def bandMask : Nat := (1 <<< shiftWidth) - 1

/-- `Bitmap.Position(hash, offset)`: one-hot mask for the 6-bit chunk of
`hash` at depth `offset`.  The Go method panics when `offset > 10`; the
arithmetic here is total, and every caller below guards the offset the way
the Go code's panic does. -/
def position (hash offset : Nat) : Nat :=
  1 <<< ((hash >>> (offset * shiftWidth)) &&& bandMask)

/-- `Bitmap.Next(position)`: set the bit. -/
def bmNext (bitmap pos : Nat) : Nat := bitmap ||| pos

/-- `Bitmap.Without(position)`: clear the bit (`&^` is and-not over 64 bits). -/
def bmWithout (bitmap pos : Nat) : Nat := bitmap &&& (mask64 ^^^ pos)

/-- `Bitmap.Has(position)`. -/
def bmHas (bitmap pos : Nat) : Bool := bitmap &&& pos != 0

/-- `msbMask(value)`: all-ones when `value == 0`, otherwise smear the top
bit downward and shift right once — for a one-hot input `2 ^ i` this is
`2 ^ i - 1`, the mask of all lower bit positions. -/
def msbMask (value : Nat) : Nat :=
  if value = 0 then mask64
  else
    let x1 := value ||| (value >>> 1)
    let x2 := x1 ||| (x1 >>> 2)
    let x3 := x2 ||| (x2 >>> 4)
    let x4 := x3 ||| (x3 >>> 8)
    let x5 := x4 ||| (x4 >>> 16)
    let x6 := x5 ||| (x5 >>> 32)
    x6 >>> 1

/-- Count set bits among the low `w` binary digits. -/
def popcountAux : Nat → Nat → Nat
  | 0, _ => 0
  | w + 1, n => n % 2 + popcountAux w (n / 2)

/-- `bits.OnesCount64`: population count of a 64-bit word. -/
def popcount (n : Nat) : Nat := popcountAux 64 n

/-- `Bitmap.Index(position)`: number of set bits strictly below the
position, plus an `ok` flag that is false exactly for a zero mask. -/
def bmIndex (bitmap pos : Nat) : Nat × Bool :=
  let m := msbMask pos
  if m = mask64 then (0, false)
  else (popcount (bitmap &&& m), true)

/-! ## The universe of hashed Go values

`hashValue` dispatches on `reflect.Kind` after unwrapping pointers and
interfaces and normalizing `int`/`uint`/`bool` to `int64`/`uint64`/`int8`.
Each constructor below is one dispatch class:

* `vptr` — a pointer or interface wrapper (both implementations strip
  them in a loop before anything else);
* `vnil` — an invalid `reflect.Value` (nil);
* `vhashable` — a value implementing the `Hashable` override, carrying
  the digest its `Hash()` method returns (both implementations return it
  verbatim; the error component is threaded identically by both and
  discarded by the top-level `Hash`);
* `vprim` — a fixed-size numeric (int8..64, uint8..64, float, complex,
  normalized int/uint/bool), carried as the little-endian byte encoding
  that `binary.Write` produces (for these fixed-size kinds the write
  succeeds);
* `vuintptr` — a `uintptr` value: its kind (12) lies inside the numeric
  dispatch range `reflect.Int .. reflect.Complex128` of both
  implementations, but `encoding/binary.Write` does not support it, so
  the write fails with an error having written nothing.  No payload is
  needed: neither implementation's digest depends on the value;
* `vtime` — a `time.Time`, carried as its `MarshalBinary` bytes (a
  `time.Time` has kind Struct, never a numeric kind, so the differing
  dispatch order of the two implementations cannot distinguish it;
  `MarshalBinary` errors are returned as `(0, err)` by both
  implementations alike and are not modelled);
* `vstring`, `vseq`, `vmap`, `vstruct` — strings, arrays/slices, maps
  (as their key/value pairs in iteration order) and structs (field name,
  exported flag, field value, in declaration order);
* `vunsupported` — an unsupported kind (chan, func, ...).
-/

inductive Value where
  | vptr (v : Value)
  | vnil
  | vhashable (h : Nat)
  | vprim (bytes : List Nat)
  | vuintptr
  | vtime (bytes : List Nat)
  | vstring (s : String)
  | vseq (elems : List Value)
  | vmap (pairs : List (Value × Value))
  | vstruct (name : String) (fields : List (String × Bool × Value))
  | vunsupported

/-- An `int` value: normalized to `int64`, then written little-endian. -/
def vint (n : Int) : Value := .vprim (le8 (Int.toNat (n % (2 ^ 64 : Int))))

/-! ## hashValue, monolithic version (src/internal/hamt/hash.go) -/

namespace HashGo

/-- `hashUpdateOrdered(hasher, a, b)`: reset, write `a` then `b` as
little-endian `uint64`s (two `binary.Write` calls), finalize. -/
def hashUpdateOrdered (a b : Nat) : Nat := fnvFold (fnvFold fnvBasis (le8 a)) (le8 b)

mutual

/-- `hashValue` of hash.go.  String hashes of struct type/field names are
written here as `fnvFold fnvBasis (strBytes s)`, the unfolding of the
source's recursive call `hashValue(reflect.ValueOf(name))` on a string.
Within the modelled universe this function never returns a non-nil
error: the numeric case *discards* `binary.Write`'s return value
(hash.go line 75), so a failed write (`uintptr`) just finalizes the
freshly reset hasher — the offset basis — with a nil error, and no
enclosing fold is aborted. -/
def hashValue : Value → Nat
  | .vptr v => hashValue v
  | .vnil => fnvBasis
  | .vhashable h => h
  | .vprim bytes => fnvFold fnvBasis bytes
  | .vuintptr => fnvBasis
  | .vtime bytes => fnvFold fnvBasis bytes
  | .vstring s => fnvFold fnvBasis (strBytes s)
  | .vseq elems => hashSeqLoop elems 0
  | .vmap pairs => hashMapLoop pairs 0
  | .vstruct name fields => hashStructLoop fields (fnvFold fnvBasis (strBytes name))
  | .vunsupported => fnvBasis

/-- The Array/Slice loop: `result = hashUpdateOrdered(result, elemHash)`,
starting from `var result uint64` (zero). -/
def hashSeqLoop : List Value → Nat → Nat
  | [], acc => acc
  | e :: rest, acc => hashSeqLoop rest (hashUpdateOrdered acc (hashValue e))

/-- The Map loop: `result ^= hashUpdateOrdered(keyHash, valueHash)`. -/
def hashMapLoop : List (Value × Value) → Nat → Nat
  | [], acc => acc
  | (k, v) :: rest, acc => hashMapLoop rest (acc ^^^ hashUpdateOrdered (hashValue k) (hashValue v))

/-- The Struct loop: unexported fields (`PkgPath != ""`) are skipped;
exported fields contribute `hashUpdateOrdered(nameHash, valueHash)` by xor. -/
def hashStructLoop : List (String × Bool × Value) → Nat → Nat
  | [], acc => acc
  | (fname, exported, fv) :: rest, acc =>
      if exported then
        hashStructLoop rest (acc ^^^ hashUpdateOrdered (fnvFold fnvBasis (strBytes fname)) (hashValue fv))
      else hashStructLoop rest acc

end

/-- `Hash(value)`: fresh FNV-1a hasher, then `hashValue`, error discarded. -/
def Hash (v : Value) : Nat := hashValue v

end HashGo

/-! ## hashValue, helper-decomposed version (src/unnamed/part_001) -/

namespace HashRefactored

/-- `hashUpdateOrdered` of part_001: reset, then a single `Write` of a
16-byte buffer holding both operands little-endian. -/
def hashUpdateOrdered (a b : Nat) : Nat := fnvFold fnvBasis (le8 a ++ le8 b)

/-- `hashNil(hasher)` (returns a bare `uint64`, no error). -/
def hashNil : Nat := fnvBasis

/-- `hashNumeric(hasher, value)` returns `(uint64, error)`: reset, then
`binary.Write` the value.  For the fixed-size kinds (`vprim`) the write
succeeds and the digest is returned with a nil error; for any value
`encoding/binary` does not support — `uintptr` is the one such kind in
the numeric dispatch range — the write fails having written nothing and
part_001 lines 82-84 *propagate* the error as `(0, err)`.  The second
component models `err != nil`. -/
def hashNumeric : Value → Nat × Bool
  | .vprim bytes => (fnvFold fnvBasis bytes, false)
  | _ => (0, true)

/-- `hashString(hasher, value)` (returns a bare `uint64`, no error). -/
def hashString (s : String) : Nat := fnvFold fnvBasis (strBytes s)

/-- `hashTime(hasher, value)` on the `MarshalBinary` bytes; `vtime`
carries a successful marshalling, so the error component is nil. -/
def hashTime (bytes : List Nat) : Nat × Bool := (fnvFold fnvBasis bytes, false)

mutual

/-- `hashValue` of part_001: unwrap (`unwrapValue`), nil, `tryHashable`,
normalize, `time.Time`, numeric, then kind dispatch to the helpers.
Returns `(uint64, error)` with the second component modelling
`err != nil`; every Go error path carries digest 0, and the loops below
abort with `(0, err)` on the first failing element, exactly as the
source's `if err != nil { return 0, err }` checks do. -/
def hashValue : Value → Nat × Bool
  | .vptr v => hashValue v
  | .vnil => (hashNil, false)
  | .vhashable h => (h, false)
  | .vtime bytes => hashTime bytes
  | .vprim bytes => hashNumeric (.vprim bytes)
  | .vuintptr => hashNumeric .vuintptr
  | .vstring s => (hashString s, false)
  | .vseq elems => hashSequenceLoop elems 0
  | .vmap pairs => hashMapLoop pairs 0
  | .vstruct name fields => hashStructLoop fields (hashString name)
  | .vunsupported => (hashNil, false)

/-- `hashSequence`'s loop: each element's error aborts the fold. -/
def hashSequenceLoop : List Value → Nat → Nat × Bool
  | [], acc => (acc, false)
  | e :: rest, acc =>
      match hashValue e with
      | (_, true) => (0, true)
      | (eh, false) => hashSequenceLoop rest (hashUpdateOrdered acc eh)

/-- `hashMap`'s loop: a key or value error aborts the fold. -/
def hashMapLoop : List (Value × Value) → Nat → Nat × Bool
  | [], acc => (acc, false)
  | (k, v) :: rest, acc =>
      match hashValue k with
      | (_, true) => (0, true)
      | (kh, false) =>
          match hashValue v with
          | (_, true) => (0, true)
          | (vh, false) => hashMapLoop rest (acc ^^^ hashUpdateOrdered kh vh)

/-- `hashStruct`'s loop: unexported fields are skipped before anything is
hashed; an exported field value's error aborts the fold.  (The field
*name* is a string, whose hash never errors, so the source's check on it
is dead.) -/
def hashStructLoop : List (String × Bool × Value) → Nat → Nat × Bool
  | [], acc => (acc, false)
  | (fname, exported, fv) :: rest, acc =>
      if exported then
        match hashValue fv with
        | (_, true) => (0, true)
        | (vh, false) => hashStructLoop rest (acc ^^^ hashUpdateOrdered (hashString fname) vh)
      else hashStructLoop rest acc

end

/-- `Hash(value)` of part_001: `hashResult, _ := hashValue(...)` — the
digest component is returned, the error discarded (so a propagated
failure surfaces as digest 0). -/
def Hash (v : Value) : Nat := (hashValue v).1

end HashRefactored

mutual

/-- No `uintptr` occurs anywhere in the value.  On this fragment
`binary.Write` succeeds everywhere and neither implementation takes an
error path. -/
def uintptrFree : Value → Bool
  | .vptr v => uintptrFree v
  | .vuintptr => false
  | .vseq elems => uintptrFreeList elems
  | .vmap pairs => uintptrFreePairs pairs
  | .vstruct _ fields => uintptrFreeFields fields
  | _ => true

/-- `uintptrFree` for every element of a sequence. -/
def uintptrFreeList : List Value → Bool
  | [] => true
  | v :: rest => uintptrFree v && uintptrFreeList rest

/-- `uintptrFree` for every key and value of a map. -/
def uintptrFreePairs : List (Value × Value) → Bool
  | [] => true
  | (k, v) :: rest => uintptrFree k && uintptrFree v && uintptrFreePairs rest

/-- `uintptrFree` for every field value of a struct. -/
def uintptrFreeFields : List (String × Bool × Value) → Bool
  | [] => true
  | (_, _, v) :: rest => uintptrFree v && uintptrFreeFields rest

end

/-! ## Nodes (leaf_node.go, collision_node.go, bitmap_indexed_node.go)

The Go `Node[K, V]` interface has exactly three implementations.  Every
constructor carries the allocation address of the Go object so that
pointer comparisons (`next == target`, `target == nextNode`) can be
modelled: `New*Node` stamps the current allocation counter and bumps it. -/

inductive Node (K V : Type) where
  | leaf (addr : Nat) (hash : Nat) (key : K) (value : V)
  | collision (addr : Nat) (hash : Nat) (entries : List (K × V))
  | branch (addr : Nat) (bitmap : Nat) (children : List (Node K V))

namespace Node

variable {K V : Type}

/-- The allocation address (Go: the interface's pointer). -/
def addrOf : Node K V → Nat
  | .leaf a _ _ _ => a
  | .collision a _ _ => a
  | .branch a _ _ => a

/-- `children[index]` (Go panics when out of range; `none` models that). -/
def childAt : List (Node K V) → Nat → Option (Node K V)
  | [], _ => none
  | c :: _, 0 => some c
  | _ :: rest, i + 1 => childAt rest i

/-- `replaceNode(children, index, node)`: copy the array and overwrite one
slot.  Go panics when `index ≥ len(children)` (never reached under the
bitmap invariant); `List.set` is the in-range behavior. -/
def replaceNode (children : List (Node K V)) (index : Nat) (n : Node K V) : List (Node K V) :=
  children.set index n

/-- `insertNode(children, index, node)`: length+1 array with `node`
spliced in at `index` (`copy` of the prefix, the node, `copy` of the
suffix).  Go panics when `index > len(children)` (never reached under the
bitmap invariant). -/
def insertNode (children : List (Node K V)) (index : Nat) (n : Node K V) : List (Node K V) :=
  children.take index ++ n :: children.drop index

/-- `removeNode(index)`: length-1 array dropping slot `index`.  Go panics
on an empty array (`make` with negative length); callers only reach it
with a non-empty array. -/
def removeNode (children : List (Node K V)) (index : Nat) : List (Node K V) :=
  children.take index ++ children.drop (index + 1)

mutual

/-- `Get(hash, offset)` across the three node types.  Outer `none` is a
panicking execution (`Position` with `offset > 10`, or a branch whose
bitmap claims a slot its children array does not back); the inner
`Option` is Go's `(value, found)` pair. -/
def get : Node K V → Nat → Nat → Option (Option V)
  | .leaf _ lh _ lv, h, _ => some (if lh = h then some lv else none)
  | .collision _ ch es, h, _ =>
      some (if ch ≠ h then none else match es with
        | [] => none
        | e :: _ => some e.2)
  | .branch _ bm cs, h, off =>
      if off > maxOffset then none
      else
        let p := position h off
        if bmHas bm p then childGet cs (bmIndex bm p).1 h (off + 1)
        else some none

/-- Descend into `children[index]` for `Get`. -/
def childGet : List (Node K V) → Nat → Nat → Nat → Option (Option V)
  | [], _, _, _ => none
  | c :: _, 0, h, off => get c h off
  | _ :: rest, i + 1, h, off => childGet rest i h off

end

mutual

/-- `Remove(hash, offset)` across the three node types, threading the
allocation counter.  Result `(removedNodeOrNil, removed, counter)`;
outer `none` is a panic (offset overflow, unbacked slot, or the
`make(len-1)` panic a zero-entry collision node would hit). -/
def remove : Node K V → Nat → Nat → Nat → Option (Option (Node K V) × Bool × Nat)
  | .leaf a lh lk lv, h, _, ctr =>
      if lh = h then some (none, true, ctr) else some (some (.leaf a lh lk lv), false, ctr)
  | .collision a ch es, h, _, ctr =>
      if ch ≠ h then some (some (.collision a ch es), false, ctr)
      else
        match es with
        | [] => none
        | [_] => some (none, true, ctr)
        | [_, e2] => some (some (.leaf ctr ch e2.1 e2.2), true, ctr + 1)
        | _ :: rest => some (some (.collision ctr ch rest), true, ctr + 1)
  | .branch a bm cs, h, off, ctr =>
      if off > maxOffset then none
      else
        let p := position h off
        if ¬ bmHas bm p then some (some (.branch a bm cs), false, ctr)
        else
          let index := (bmIndex bm p).1
          match childRemove cs index h (off + 1) ctr with
          | none => none
          | some (target, nextNode, exists?, ctr') =>
            if ¬ exists? then some (some (.branch a bm cs), false, ctr')
            else
              match nextNode with
              | some nn =>
                  if nn.addrOf = target.addrOf then some (some (.branch a bm cs), false, ctr')
                  else some (some (.branch ctr' bm (replaceNode cs index nn)), true, ctr' + 1)
              | none =>
                  let nextBitmap := bmWithout bm p
                  let nextChildren := removeNode cs index
                  if nextChildren.length = 0 then some (none, true, ctr')
                  else some (some (.branch ctr' nextBitmap nextChildren), true, ctr' + 1)

/-- Locate `children[index]` and call its `Remove`; also returns the
target child so the caller can compare pointers. -/
def childRemove :
    List (Node K V) → Nat → Nat → Nat → Nat →
    Option (Node K V × Option (Node K V) × Bool × Nat)
  | [], _, _, _, _ => none
  | c :: _, 0, h, off, ctr =>
      match remove c h off ctr with
      | none => none
      | some (nn, b, ctr') => some (c, nn, b, ctr')
  | _ :: rest, i + 1, h, off, ctr => childRemove rest i h off ctr

end

/-- `Set(key, value, hash, offset)` across the three node types, threading
the allocation counter.  `fuel` bounds the recursion depth (the executions
Go completes are exactly those with enough fuel; Go's own descent is cut
off by `Position`'s offset panic, modelled by the `maxOffset` guards, so
any `fuel ≥ 2 * (depth + maxOffset + 2)` is enough).  Outer `none` is a
panic or exhausted fuel.  N.B. the branch case delegates to the occupied
child at the *same* offset, exactly as `bitmap_indexed_node.go` line 42
does (`target.Set(key, value, hash, offset)` — no `+1`). -/
def set : Nat → Node K V → K → V → Nat → Nat → Nat → Option (Node K V × Nat)
  | 0, _, _, _, _, _, _ => none
  | fuel + 1, .leaf a lh lk lv, k, v, h, off, ctr =>
      if lh = h then some (.leaf ctr h k v, ctr + 1)
      else if off > maxOffset then none
      else
        let position1 := position lh off
        let position2 := position h off
        if position1 = position2 then
          match set fuel (.leaf a lh lk lv) k v h (off + 1) ctr with
          | none => none
          | some (nextNode, ctr') =>
              some (.branch ctr' (bmNext 0 position1) [nextNode], ctr' + 1)
        else
          set fuel (.branch ctr (bmNext 0 position1) [.leaf a lh lk lv]) k v h off (ctr + 1)
  | _ + 1, .collision _ ch es, k, v, h, _, ctr =>
      if ch = h then some (.collision ctr ch (es ++ [(k, v)]), ctr + 1)
      else some (.leaf ctr h k v, ctr + 1)
  | fuel + 1, .branch a bm cs, k, v, h, off, ctr =>
      if off > maxOffset then none
      else
        let p := position h off
        let index := (bmIndex bm p).1
        if bmHas bm p then
          match childAt cs index with
          | none => none
          | some target =>
            match set fuel target k v h off ctr with
            | none => none
            | some (next, ctr') =>
              if next.addrOf = target.addrOf then some (.branch a bm cs, ctr')
              else some (.branch ctr' bm (replaceNode cs index next), ctr' + 1)
        else
          some (.branch (ctr + 1) (bmNext bm p) (insertNode cs index (.leaf ctr h k v)), ctr + 2)

/-- Modelled from the spec: §9's canonical offset rule ("increment the
depth parameter exactly once per level descended, uniformly across
Get/Set/Remove").  Identical to `set` except that the branch case
delegates to the occupied child at `off + 1` instead of `off`; this is
the single difference, used to exhibit that the source's `Set` does not
follow the canonical rule. -/
def setCanonical : Nat → Node K V → K → V → Nat → Nat → Nat → Option (Node K V × Nat)
  | 0, _, _, _, _, _, _ => none
  | fuel + 1, .leaf a lh lk lv, k, v, h, off, ctr =>
      if lh = h then some (.leaf ctr h k v, ctr + 1)
      else if off > maxOffset then none
      else
        let position1 := position lh off
        let position2 := position h off
        if position1 = position2 then
          match setCanonical fuel (.leaf a lh lk lv) k v h (off + 1) ctr with
          | none => none
          | some (nextNode, ctr') =>
              some (.branch ctr' (bmNext 0 position1) [nextNode], ctr' + 1)
        else
          setCanonical fuel (.branch ctr (bmNext 0 position1) [.leaf a lh lk lv]) k v h off (ctr + 1)
  | _ + 1, .collision _ ch es, k, v, h, _, ctr =>
      if ch = h then some (.collision ctr ch (es ++ [(k, v)]), ctr + 1)
      else some (.leaf ctr h k v, ctr + 1)
  | fuel + 1, .branch a bm cs, k, v, h, off, ctr =>
      if off > maxOffset then none
      else
        let p := position h off
        let index := (bmIndex bm p).1
        if bmHas bm p then
          match childAt cs index with
          | none => none
          | some target =>
            match setCanonical fuel target k v h (off + 1) ctr with
            | none => none
            | some (next, ctr') =>
              if next.addrOf = target.addrOf then some (.branch a bm cs, ctr')
              else some (.branch ctr' bm (replaceNode cs index next), ctr' + 1)
        else
          some (.branch (ctr + 1) (bmNext bm p) (insertNode cs index (.leaf ctr h k v)), ctr + 2)

mutual

/-- `hash` is absent from a node, following exactly the descent `Remove`
performs: a leaf or collision node is keyed by its stored hash; a branch
consults the bitmap and descends into the backing child.  A branch at an
invalid depth, or one whose bitmap claims a slot with no backing child,
is degenerate (Go panics on it), and no hash counts as absent from it. -/
def hashAbsent : Node K V → Nat → Nat → Bool
  | .leaf _ lh _ _, h, _ => lh != h
  | .collision _ ch _, h, _ => ch != h
  | .branch _ bm cs, h, off =>
      decide (off ≤ maxOffset) &&
        (!bmHas bm (position h off) ||
          childAbsent cs (bmIndex bm (position h off)).1 h (off + 1))

/-- `hashAbsent` for `children[index]`; false when the slot is unbacked. -/
def childAbsent : List (Node K V) → Nat → Nat → Nat → Bool
  | [], _, _, _ => false
  | c :: _, 0, h, off => hashAbsent c h off
  | _ :: rest, i + 1, h, off => childAbsent rest i h off

end

mutual

/-- The structural branch invariant from the spec's data model:
`len(children) == popcount(bitmap)` at every branch (with the bitmap a
64-bit value), recursively. -/
def wf : Node K V → Bool
  | .leaf _ _ _ _ => true
  | .collision _ _ _ => true
  | .branch _ bm cs =>
      decide (bm < 2 ^ 64) && decide (cs.length = popcount bm) && wfChildren cs

/-- `wf` for every element of a children array. -/
def wfChildren : List (Node K V) → Bool
  | [] => true
  | c :: rest => wf c && wfChildren rest

end

end Node

/-! ## Concrete trees for the offset-discipline scenario

Hashes `0`, `1` and `64` are pairwise distinct; `0` and `64` share their
lowest 6-bit chunk (slot 0 at depth 0) and differ at depth 1.  Inserting
them in order from a root leaf exercises the branch-level `Set`
delegation into an occupied slot. -/

/-- After `NewLeafNode(0, "k1", 100)`. -/
def exampleRoot1 : Node String Nat := .leaf 0 0 "k1" 100

/-- After `root1.Set("k2", 200, 1, 0)`: a two-slot branch. -/
def exampleRoot2 : Node String Nat :=
  .branch 3 3 [.leaf 0 0 "k1" 100, .leaf 2 1 "k2" 200]

/-- After `root2.Set("k3", 300, 64, 0)` as the source computes it: the
slot-0 child is a wrapper branch whose single bit is the *depth-0* chunk
of the colliding hashes, although `Get` will query it with the depth-1
chunk — the inserted leaf for hash 64 is unreachable. -/
def exampleRoot3 : Node String Nat :=
  .branch 8 3
    [.branch 7 1 [.branch 6 3 [.leaf 0 0 "k1" 100, .leaf 5 64 "k3" 300]],
     .leaf 2 1 "k2" 200]

/-- After `root2.Set("k3", 300, 64, 0)` under the canonical offset rule:
the slot-0 child is keyed by the depth-1 chunks, and both hashes in it
are reachable. -/
def exampleRoot3Canonical : Node String Nat :=
  .branch 7 3
    [.branch 6 3 [.leaf 0 0 "k1" 100, .leaf 5 64 "k3" 300],
     .leaf 2 1 "k2" 200]

/-- Scenario B's collision node: `NewCollisionNode(12345, [("key1",100),("key2",200)])`. -/
def scenarioB : Node String Nat := .collision 0 12345 [("key1", 100), ("key2", 200)]

/-! ## Theorems -/

/-- C1.  The claim fails on the code: inserting the pairwise distinct
64-bit hashes 0, 1, 64 (values 100, 200, 300) by successive `Set` calls
from a root leaf, a `Get` with hash 64 at offset 0 returns found=false
instead of the most recently set value 300.  Hashes 0 and 64 share their
depth-0 chunk; the branch-level `Set` delegates to the occupied leaf at
the same offset (no `+1`), so the leaf wraps the result in a branch keyed
by the depth-0 chunk, one level too deep, and the new leaf becomes
unreachable.  The first two hashes remain reachable. -/
theorem claim1_insert_then_get_fails :
    Node.set 20 exampleRoot1 "k2" 200 1 0 1 = some (exampleRoot2, 4) ∧
    Node.set 20 exampleRoot2 "k3" 300 64 0 4 = some (exampleRoot3, 9) ∧
    Node.get exampleRoot3 64 0 = some none ∧
    Node.get exampleRoot3 0 0 = some (some 100) ∧
    Node.get exampleRoot3 1 0 = some (some 200) :=
  ⟨rfl, rfl, rfl, rfl, rfl⟩

/-- C2.  The claim fails on the code: `BitmapIndexedNode.Set` passes the
*same* offset to the occupied child (`target.Set(key, value, hash, offset)`,
bitmap_indexed_node.go line 42), while `Get` and `Remove` pass `offset+1`.
On `exampleRoot2` (hashes 0 and 1 present) inserting hash 64, the source's
`Set` and the canonical increment-once-per-level `Set` produce different
trees, and only the canonical one keeps the inserted hash retrievable. -/
theorem claim2_set_does_not_increment_offset :
    Node.set 20 exampleRoot2 "k3" 300 64 0 4 = some (exampleRoot3, 9) ∧
    Node.setCanonical 20 exampleRoot2 "k3" 300 64 0 4 = some (exampleRoot3Canonical, 8) ∧
    Node.get exampleRoot3 64 0 = some none ∧
    Node.get exampleRoot3Canonical 64 0 = some (some 300) :=
  ⟨rfl, rfl, rfl, rfl⟩

/-- C4.  Scenario B behaves exactly as claimed, at every offset (the
collision-node operations never consult the offset): `Get(12345, off)`
returns the first entry's value `(100, true)`; `Set("key3",300,12345,off)`
appends, yielding a 3-entry collision node; `Remove(12345)` on that node
drops the first entry, leaving 2 entries headed by `("key2",200)`;
a further `Remove(12345)` collapses to a leaf holding `("key3",300)`. -/
theorem claim4_scenarioB :
    ∀ (off ctr fuel c₁ c₂ : Nat),
    Node.get scenarioB 12345 off = some (some 100) ∧
    Node.set (fuel + 1) scenarioB "key3" 300 12345 off ctr =
      some (.collision ctr 12345 [("key1", 100), ("key2", 200), ("key3", 300)], ctr + 1) ∧
    Node.remove (Node.collision ctr 12345 [("key1", 100), ("key2", 200), ("key3", 300)])
        12345 off c₁ =
      some (some (.collision c₁ 12345 [("key2", 200), ("key3", 300)]), true, c₁ + 1) ∧
    Node.remove (Node.collision c₁ 12345 [("key2", 200), ("key3", 300)]) 12345 off c₂ =
      some (some (.leaf c₂ 12345 "key3" 300), true, c₂ + 1) :=
  fun _ _ _ _ _ => ⟨rfl, rfl, rfl, rfl⟩

/-- C6, counterexample.  Hashing the empty sequence does not return the
nil digest: the Array/Slice fold starts from `var result uint64` (zero)
and an empty loop returns 0, while an invalid (nil) value hashes to the
freshly reset FNV-1a state, the offset basis. -/
theorem claim6_counterexample_empty_seq_ne_nil :
    (HashGo.Hash (.vseq []) == HashGo.Hash .vnil) = false := by decide

/-- C6, amended.  Hashing an empty sequence returns 0 — the identity of
the sequence fold — which differs from the fixed nil digest
14695981039346656037 (the FNV-1a 64-bit offset basis). -/
theorem claim6_empty_seq_digest_is_fold_identity :
    HashGo.Hash (.vseq []) = 0 ∧ HashGo.Hash .vnil = 14695981039346656037 :=
  ⟨rfl, rfl⟩

/-! ### Relating the two hashValue implementations -/

theorem fnvFold_append (b : Nat) (xs ys : List Nat) :
    fnvFold (fnvFold b xs) ys = fnvFold b (xs ++ ys) := by
  simp [fnvFold, List.foldl_append]

/-- The two order-sensitive combinators agree: writing two 8-byte
little-endian words with two `binary.Write` calls feeds the hasher the
same byte sequence as one 16-byte buffer. -/
theorem hashUpdateOrdered_eq (a b : Nat) :
    HashGo.hashUpdateOrdered a b = HashRefactored.hashUpdateOrdered a b := by
  simp [HashGo.hashUpdateOrdered, HashRefactored.hashUpdateOrdered, fnvFold_append]

theorem uintptrFreeList_iff (l : List Value) :
    uintptrFreeList l = true ↔ ∀ e ∈ l, uintptrFree e = true := by
  induction l with
  | nil => simp [uintptrFreeList]
  | cons e rest ih => simp [uintptrFreeList, ih]

theorem uintptrFreePairs_iff (l : List (Value × Value)) :
    uintptrFreePairs l = true ↔
      ∀ p ∈ l, uintptrFree p.1 = true ∧ uintptrFree p.2 = true := by
  induction l with
  | nil => simp [uintptrFreePairs]
  | cons p rest ih =>
      obtain ⟨k, v⟩ := p
      simp [uintptrFreePairs, ih, and_assoc]

theorem uintptrFreeFields_iff (l : List (String × Bool × Value)) :
    uintptrFreeFields l = true ↔ ∀ f ∈ l, uintptrFree f.2.2 = true := by
  induction l with
  | nil => simp [uintptrFreeFields]
  | cons f rest ih =>
      obtain ⟨fname, exported, fv⟩ := f
      simp [uintptrFreeFields, ih]

theorem hashSequenceLoop_agree (l : List Value)
    (h : ∀ e ∈ l, HashRefactored.hashValue e = (HashGo.hashValue e, false)) :
    ∀ acc, HashRefactored.hashSequenceLoop l acc = (HashGo.hashSeqLoop l acc, false) := by
  induction l with
  | nil => intro acc; rfl
  | cons e rest ih =>
      intro acc
      rw [HashRefactored.hashSequenceLoop, HashGo.hashSeqLoop,
        h e (List.mem_cons_self e rest)]
      simp only []
      rw [← hashUpdateOrdered_eq]
      exact ih (fun x hx => h x (List.mem_cons_of_mem e hx)) _

theorem hashMapLoop_agree (l : List (Value × Value))
    (h : ∀ p ∈ l, HashRefactored.hashValue p.1 = (HashGo.hashValue p.1, false) ∧
      HashRefactored.hashValue p.2 = (HashGo.hashValue p.2, false)) :
    ∀ acc, HashRefactored.hashMapLoop l acc = (HashGo.hashMapLoop l acc, false) := by
  induction l with
  | nil => intro acc; rfl
  | cons p rest ih =>
      intro acc
      obtain ⟨k, v⟩ := p
      have hp := h (k, v) (List.mem_cons_self _ rest)
      rw [HashRefactored.hashMapLoop, HashGo.hashMapLoop, hp.1, hp.2]
      simp only []
      rw [← hashUpdateOrdered_eq]
      exact ih (fun x hx => h x (List.mem_cons_of_mem _ hx)) _

theorem hashStructLoop_agree (l : List (String × Bool × Value))
    (h : ∀ f ∈ l, HashRefactored.hashValue f.2.2 = (HashGo.hashValue f.2.2, false)) :
    ∀ acc, HashRefactored.hashStructLoop l acc = (HashGo.hashStructLoop l acc, false) := by
  induction l with
  | nil => intro acc; rfl
  | cons f rest ih =>
      intro acc
      obtain ⟨fname, exported, fv⟩ := f
      have hf := h (fname, exported, fv) (List.mem_cons_self _ rest)
      rw [HashRefactored.hashStructLoop, HashGo.hashStructLoop]
      cases exported with
      | true =>
          rw [if_pos rfl, if_pos rfl, hf]
          simp only []
          rw [← hashUpdateOrdered_eq]
          show HashRefactored.hashStructLoop rest _ = _
          have hsn : HashRefactored.hashString fname = fnvFold fnvBasis (strBytes fname) := rfl
          rw [hsn]
          exact ih (fun x hx => h x (List.mem_cons_of_mem _ hx)) _
      | false =>
          rw [if_neg Bool.false_ne_true, if_neg Bool.false_ne_true]
          exact ih (fun x hx => h x (List.mem_cons_of_mem _ hx)) _

/-- On uintptr-free values the refactored `hashValue` returns the
monolithic digest with a nil error. -/
theorem hashValue_agree_aux :
    ∀ (n : Nat) (v : Value), sizeOf v ≤ n → uintptrFree v = true →
      HashRefactored.hashValue v = (HashGo.hashValue v, false) := by
  intro n
  induction n with
  | zero =>
      intro v hv
      exfalso
      cases v <;> simp at hv
  | succ n ih =>
      intro v hv hfree
      match v with
      | .vptr w =>
          have hw : sizeOf w ≤ n := by simp at hv; omega
          rw [uintptrFree] at hfree
          rw [HashGo.hashValue, HashRefactored.hashValue]
          exact ih w hw hfree
      | .vnil => rfl
      | .vhashable h => rfl
      | .vprim bytes => rfl
      | .vuintptr => simp [uintptrFree] at hfree
      | .vtime bytes => rfl
      | .vstring s => rfl
      | .vunsupported => rfl
      | .vseq elems =>
          rw [uintptrFree] at hfree
          rw [HashGo.hashValue, HashRefactored.hashValue]
          refine hashSequenceLoop_agree elems (fun e he => ih e ?_ ?_) 0
          · have h1 : sizeOf e < sizeOf elems := List.sizeOf_lt_of_mem he
            have h2 : sizeOf (Value.vseq elems) = 1 + sizeOf elems := by simp
            omega
          · exact (uintptrFreeList_iff elems).1 hfree e he
      | .vmap pairs =>
          rw [uintptrFree] at hfree
          rw [HashGo.hashValue, HashRefactored.hashValue]
          refine hashMapLoop_agree pairs (fun p hp => ⟨ih p.1 ?_ ?_, ih p.2 ?_ ?_⟩) 0
          case refine_2 => exact ((uintptrFreePairs_iff pairs).1 hfree p hp).1
          case refine_4 => exact ((uintptrFreePairs_iff pairs).1 hfree p hp).2
          all_goals
            have h1 : sizeOf p < sizeOf pairs := List.sizeOf_lt_of_mem hp
            have h2 : sizeOf (Value.vmap pairs) = 1 + sizeOf pairs := by simp
            obtain ⟨p1, p2⟩ := p
            simp at h1 ⊢
            omega
      | .vstruct name fields =>
          rw [uintptrFree] at hfree
          rw [HashGo.hashValue, HashRefactored.hashValue]
          refine hashStructLoop_agree fields (fun f hf => ih f.2.2 ?_ ?_) _
          · have h1 : sizeOf f < sizeOf fields := List.sizeOf_lt_of_mem hf
            have h2 : sizeOf (Value.vstruct name fields) = 1 + sizeOf name + sizeOf fields := by
              simp
            obtain ⟨f1, f2, f3⟩ := f
            simp at h1 ⊢
            omega
          · exact (uintptrFreeFields_iff fields).1 hfree f hf

set_option maxRecDepth 4000 in
/-- C10, counterexample.  The two implementations differ on `uintptr`
inputs: `binary.Write` fails for kind Uintptr, hash.go discards the
error and finalizes the reset hasher (the FNV-1a offset basis), while
part_001 propagates `(0, err)`, which the top-level `Hash` surfaces as
digest 0; inside a sequence the failing element aborts part_001's fold
but not hash.go's. -/
theorem claim10_counterexample_uintptr_divergence :
    HashGo.Hash .vuintptr = 14695981039346656037 ∧
    HashRefactored.Hash .vuintptr = 0 ∧
    (HashGo.Hash .vuintptr == HashRefactored.Hash .vuintptr) = false ∧
    (HashGo.Hash (.vseq [vint 1, .vuintptr]) ==
      HashRefactored.Hash (.vseq [vint 1, .vuintptr])) = false := by
  refine ⟨rfl, rfl, by decide, by decide⟩

/-- C10, amended.  On every value containing no `uintptr` — the one kind
in the numeric dispatch range that `binary.Write` rejects, and so the
only error source distinguishing the two — the monolithic `hashValue` of
hash.go and the helper-decomposed `hashValue` of part_001 compute the
same digest; in particular the two order-sensitive combinators agree
byte-for-byte. -/
theorem claim10_agree_on_uintptr_free_values :
    ∀ v : Value, uintptrFree v = true → HashGo.Hash v = HashRefactored.Hash v := by
  intro v hfree
  show HashGo.hashValue v = (HashRefactored.hashValue v).1
  rw [hashValue_agree_aux (sizeOf v) v (Nat.le_refl _) hfree]

/-- Witness for C10's amended claim at a concrete uintptr-free value. -/
theorem claim10_witness :
    HashGo.Hash (.vseq [vint 1, vint 2, vint 3]) =
      HashRefactored.Hash (.vseq [vint 1, vint 2, vint 3]) :=
  claim10_agree_on_uintptr_free_values (.vseq [vint 1, vint 2, vint 3]) rfl

/-! ### Map-hash order independence, sequence-hash order dependence -/

theorem hashMapLoop_perm {l₁ l₂ : List (Value × Value)} (hp : l₁.Perm l₂) :
    ∀ acc, HashGo.hashMapLoop l₁ acc = HashGo.hashMapLoop l₂ acc := by
  induction hp with
  | nil => intro acc; rfl
  | cons x _ ih =>
      intro acc
      obtain ⟨k, v⟩ := x
      rw [HashGo.hashMapLoop, HashGo.hashMapLoop]
      exact ih _
  | swap x y l =>
      intro acc
      obtain ⟨k₁, v₁⟩ := x
      obtain ⟨k₂, v₂⟩ := y
      rw [HashGo.hashMapLoop, HashGo.hashMapLoop, HashGo.hashMapLoop, HashGo.hashMapLoop]
      rw [Nat.xor_assoc, Nat.xor_assoc,
        Nat.xor_comm (HashGo.hashUpdateOrdered (HashGo.hashValue k₂) (HashGo.hashValue v₂))]
  | trans _ _ ih₁ ih₂ => intro acc; exact (ih₁ acc).trans (ih₂ acc)

set_option maxRecDepth 4000 in
/-- C7.  Map hashing is order-independent: any permutation of a map's
key/value pairs yields the same digest (the per-pair digests are combined
by xor), and concretely `Hash({"a":1,"b":2}) = Hash({"b":2,"a":1})`.
Sequence hashing is order-dependent: `Hash([1,2,3]) ≠ Hash([3,2,1])`. -/
theorem claim7_map_unordered_seq_ordered :
    (∀ l₁ l₂ : List (Value × Value), l₁.Perm l₂ →
      HashGo.Hash (.vmap l₁) = HashGo.Hash (.vmap l₂)) ∧
    HashGo.Hash (.vmap [(.vstring "a", vint 1), (.vstring "b", vint 2)]) =
      HashGo.Hash (.vmap [(.vstring "b", vint 2), (.vstring "a", vint 1)]) ∧
    (HashGo.Hash (.vseq [vint 1, vint 2, vint 3]) ==
      HashGo.Hash (.vseq [vint 3, vint 2, vint 1])) = false := by
  refine ⟨?_, ?_, ?_⟩
  · intro l₁ l₂ hp
    show HashGo.hashValue _ = HashGo.hashValue _
    rw [HashGo.hashValue, HashGo.hashValue]
    exact hashMapLoop_perm hp 0
  · decide
  · decide

set_option maxRecDepth 4000 in
/-- Witness for C7 at a concrete permutation. -/
theorem claim7_witness :
    HashGo.Hash (.vmap [(vint 5, vint 6), (vint 7, vint 8)]) =
      HashGo.Hash (.vmap [(vint 7, vint 8), (vint 5, vint 6)]) :=
  claim7_map_unordered_seq_ordered.1 _ _ (List.Perm.swap _ _ _)

/-! ### Struct hashing ignores unexported fields -/

theorem hashStructLoop_filter (l : List (String × Bool × Value)) :
    ∀ acc, HashGo.hashStructLoop l acc = HashGo.hashStructLoop (l.filter (fun f => f.2.1)) acc := by
  induction l with
  | nil => intro acc; rfl
  | cons f rest ih =>
      intro acc
      obtain ⟨fname, exported, fv⟩ := f
      cases exported with
      | true => rw [HashGo.hashStructLoop, List.filter_cons_of_pos rfl, HashGo.hashStructLoop]
                exact ih _
      | false => rw [HashGo.hashStructLoop, List.filter_cons_of_neg (by simp)]
                 exact ih _

/-- C8.  Two struct values of the same type whose exported fields agree
hash identically: `hashValue` skips every field with a non-empty
`PkgPath` (unexported), so the digest only depends on the type name and
the exported (name, value) fields. -/
theorem claim8_unexported_fields_invisible :
    ∀ (name : String) (fs₁ fs₂ : List (String × Bool × Value)),
      fs₁.filter (fun f => f.2.1) = fs₂.filter (fun f => f.2.1) →
      HashGo.Hash (.vstruct name fs₁) = HashGo.Hash (.vstruct name fs₂) := by
  intro name fs₁ fs₂ h
  show HashGo.hashValue _ = HashGo.hashValue _
  rw [HashGo.hashValue, HashGo.hashValue, hashStructLoop_filter, h, ← hashStructLoop_filter]

/-- Witness for C8: two `T` records agreeing on the exported field `A`
and differing in the unexported field `b` hash identically. -/
theorem claim8_witness :
    HashGo.Hash (.vstruct "T" [("A", true, vint 1), ("b", false, vint 2)]) =
      HashGo.Hash (.vstruct "T" [("A", true, vint 1), ("b", false, vint 3)]) :=
  claim8_unexported_fields_invisible "T" _ _ rfl

/-! ### Popcount and bitmap lemmas -/

theorem popcountAux_eq_sum :
    ∀ (w n : Nat), popcountAux w n = ∑ i ∈ Finset.range w, (if n.testBit i then 1 else 0) := by
  intro w
  induction w with
  | zero => intro n; rfl
  | succ w ih =>
      intro n
      rw [popcountAux, ih (n / 2), Finset.sum_range_succ']
      have h0 : (if n.testBit 0 then 1 else 0) = n % 2 := by
        rcases Nat.mod_two_eq_zero_or_one n with h | h <;> simp [Nat.testBit_zero, h]
      have hs : ∀ i, (if n.testBit (i + 1) then 1 else 0) = (if (n / 2).testBit i then 1 else 0) := by
        intro i; rw [Nat.testBit_add_one]
      rw [h0, Finset.sum_congr rfl (fun i _ => (hs i).symm)]
      omega

theorem popcount_eq_sum (n : Nat) :
    popcount n = ∑ i ∈ Finset.range 64, (if n.testBit i then 1 else 0) :=
  popcountAux_eq_sum 64 n

theorem popcount_two_pow {i : Nat} (hi : i < 64) : popcount (2 ^ i) = 1 := by
  rw [popcount_eq_sum]
  have : ∀ j, ((2 ^ i).testBit j) = decide (i = j) := fun j => Nat.testBit_two_pow
  rw [Finset.sum_congr rfl (fun j _ => by rw [this j])]
  simp [Finset.sum_ite_eq, Finset.mem_range, hi]

theorem popcount_lor_disjoint {x y : Nat} (hxy : x &&& y = 0) :
    popcount (x ||| y) = popcount x + popcount y := by
  have hpt : ∀ i, (x.testBit i && y.testBit i) = false := by
    intro i
    have := congrArg (fun t => t.testBit i) hxy
    simpa [Nat.testBit_and] using this
  rw [popcount_eq_sum, popcount_eq_sum, popcount_eq_sum, ← Finset.sum_add_distrib]
  refine Finset.sum_congr rfl (fun i _ => ?_)
  have := hpt i
  rw [Nat.testBit_or]
  cases hx : x.testBit i <;> cases hy : y.testBit i <;> simp_all

theorem popcount_and_le (x m : Nat) : popcount (x &&& m) ≤ popcount x := by
  rw [popcount_eq_sum, popcount_eq_sum]
  refine Finset.sum_le_sum (fun i _ => ?_)
  rw [Nat.testBit_and]
  cases hx : x.testBit i <;> cases hm : m.testBit i <;> simp

theorem popcount_and_lt {x i : Nat} (hi : i < 64) (hbit : x.testBit i = true) :
    popcount (x &&& (2 ^ i - 1)) < popcount x := by
  rw [popcount_eq_sum, popcount_eq_sum]
  refine Finset.sum_lt_sum (fun j _ => ?_) ⟨i, Finset.mem_range.2 hi, ?_⟩
  · rw [Nat.testBit_and]
    cases hx : x.testBit j <;> cases hm : (2 ^ i - 1).testBit j <;> simp
  · rw [Nat.testBit_and, hbit, Nat.testBit_two_pow_sub_one]
    simp

theorem testBit_bmWithout {x i j : Nat} (hj : j < 64) :
    (bmWithout x (2 ^ i)).testBit j = (x.testBit j && !(decide (i = j))) := by
  rw [bmWithout, mask64, Nat.testBit_and, Nat.testBit_xor, Nat.testBit_two_pow_sub_one,
    Nat.testBit_two_pow]
  simp [hj]

theorem popcount_bmWithout {x i : Nat} (hi : i < 64) (hbit : x.testBit i = true) :
    popcount (bmWithout x (2 ^ i)) + 1 = popcount x := by
  rw [popcount_eq_sum, popcount_eq_sum]
  have hmem : i ∈ Finset.range 64 := Finset.mem_range.2 hi
  rw [← Finset.sum_erase_add _ _ hmem, ← Finset.sum_erase_add _ _ hmem]
  have h1 : ∀ j ∈ (Finset.range 64).erase i,
      (if (bmWithout x (2 ^ i)).testBit j then 1 else 0) = (if x.testBit j then 1 else 0) := by
    intro j hjm
    obtain ⟨hne, hjr⟩ := Finset.mem_erase.1 hjm
    rw [testBit_bmWithout (Finset.mem_range.1 hjr)]
    have : decide (i = j) = false := by simp [Ne.symm hne]
    rw [this]
    cases x.testBit j <;> simp
  rw [Finset.sum_congr rfl h1]
  have h2 : (bmWithout x (2 ^ i)).testBit i = false := by
    rw [testBit_bmWithout hi]; simp
  rw [h2, hbit]
  simp [Nat.add_assoc]

theorem bmHas_iff {bm i : Nat} : bmHas bm (2 ^ i) = true ↔ bm.testBit i = true := by
  constructor
  · intro h
    have hne : bm &&& 2 ^ i ≠ 0 := by
      simpa [bmHas] using h
    obtain ⟨j, hj⟩ := Nat.ne_zero_implies_bit_true hne
    rw [Nat.testBit_and, Bool.and_eq_true, Nat.testBit_two_pow] at hj
    obtain ⟨hbm, hij⟩ := hj
    rw [of_decide_eq_true hij]
    exact hbm
  · intro h
    have : (bm &&& 2 ^ i).testBit i = true := by
      rw [Nat.testBit_and, h, Nat.testBit_two_pow_self]
      rfl
    have hne : bm &&& 2 ^ i ≠ 0 := fun h0 => by rw [h0] at this; simp at this
    simpa [bmHas] using hne

theorem bmHas_false_and {bm i : Nat} (h : bmHas bm (2 ^ i) = false) : bm &&& 2 ^ i = 0 := by
  simpa [bmHas] using h

/-- For a one-hot mask the smear in `msbMask` produces exactly the mask of
the strictly lower bit positions. -/
theorem msbMask_two_pow : ∀ i < 64, msbMask (2 ^ i) = 2 ^ i - 1 := by decide

theorem bmIndex_two_pow {bm i : Nat} (hi : i < 64) :
    bmIndex bm (2 ^ i) = (popcount (bm &&& (2 ^ i - 1)), true) := by
  rw [bmIndex, msbMask_two_pow i hi]
  have hlt : 2 ^ i - 1 < mask64 := by
    rw [mask64]
    have : (2 : Nat) ^ i < 2 ^ 64 := Nat.pow_lt_pow_right (by omega) hi
    omega
  rw [if_neg (by omega)]

/-- `Position` always yields a one-hot mask `2 ^ e` with `e < 64`. -/
theorem position_spec (h off : Nat) : ∃ e, e < 64 ∧ position h off = 2 ^ e := by
  refine ⟨(h >>> (off * shiftWidth)) &&& bandMask, ?_, ?_⟩
  · have : (h >>> (off * shiftWidth)) &&& bandMask ≤ bandMask := Nat.and_le_right
    have hb : bandMask = 63 := by decide
    omega
  · rw [position, Nat.shiftLeft_eq, Nat.one_mul]

theorem position_lt (h off : Nat) : position h off < 2 ^ 64 := by
  obtain ⟨e, he, hpe⟩ := position_spec h off
  rw [hpe]
  exact Nat.pow_lt_pow_right (by omega) he

/-! ### Children-array helpers -/

namespace Node

variable {K V : Type}

theorem wf_branch_iff {a bm : Nat} {cs : List (Node K V)} :
    wf (.branch a bm cs) = true ↔
      bm < 2 ^ 64 ∧ cs.length = popcount bm ∧ wfChildren cs = true := by
  simp [wf, Bool.and_assoc]

theorem wfChildren_iff {cs : List (Node K V)} :
    wfChildren cs = true ↔ ∀ c ∈ cs, wf c = true := by
  induction cs with
  | nil => simp [wfChildren]
  | cons c rest ih => simp [wfChildren, ih]

theorem childAt_mem {cs : List (Node K V)} {i : Nat} {c : Node K V}
    (h : childAt cs i = some c) : c ∈ cs := by
  induction cs generalizing i with
  | nil => simp [childAt] at h
  | cons c₀ rest ih =>
      cases i with
      | zero =>
          rw [childAt] at h
          cases h
          exact List.mem_cons_self _ _
      | succ i =>
          rw [childAt] at h
          exact List.mem_cons_of_mem _ (ih h)

theorem insertNode_length {cs : List (Node K V)} {i : Nat} (n : Node K V)
    (h : i ≤ cs.length) : (insertNode cs i n).length = cs.length + 1 := by
  simp [insertNode]
  omega

theorem mem_insertNode {cs : List (Node K V)} {i : Nat} {n c : Node K V}
    (h : c ∈ insertNode cs i n) : c = n ∨ c ∈ cs := by
  rw [insertNode] at h
  rcases List.mem_append.1 h with h | h
  · exact Or.inr (List.take_subset _ _ h)
  · rcases List.mem_cons.1 h with h | h
    · exact Or.inl h
    · exact Or.inr (List.drop_subset _ _ h)

theorem removeNode_length {cs : List (Node K V)} {i : Nat} (h : i < cs.length) :
    (removeNode cs i).length = cs.length - 1 := by
  simp [removeNode]
  omega

theorem mem_removeNode {cs : List (Node K V)} {i : Nat} {c : Node K V}
    (h : c ∈ removeNode cs i) : c ∈ cs := by
  rw [removeNode] at h
  rcases List.mem_append.1 h with h | h
  · exact List.take_subset _ _ h
  · exact List.drop_subset _ _ h

theorem mem_replaceNode {cs : List (Node K V)} {i : Nat} {n c : Node K V}
    (h : c ∈ replaceNode cs i n) : c ∈ cs ∨ c = n :=
  List.mem_or_eq_of_mem_set h

/-- `childRemove` locates the child and runs its `Remove`. -/
theorem childRemove_eq (cs : List (Node K V)) (i h off ctr : Nat) :
    childRemove cs i h off ctr =
      match childAt cs i with
      | none => none
      | some c =>
          match remove c h off ctr with
          | none => none
          | some (nn, b, ctr') => some (c, nn, b, ctr') := by
  induction cs generalizing i with
  | nil => rfl
  | cons c₀ rest ih =>
      cases i with
      | zero => rfl
      | succ i => rw [childRemove, ih i, childAt]

/-- `childAbsent` is `hashAbsent` of the located child. -/
theorem childAbsent_eq (cs : List (Node K V)) (i h off : Nat) :
    childAbsent cs i h off =
      match childAt cs i with
      | none => false
      | some c => hashAbsent c h off := by
  induction cs generalizing i with
  | nil => rfl
  | cons c₀ rest ih =>
      cases i with
      | zero => rfl
      | succ i => rw [childAbsent, ih i, childAt]

theorem bmIndex_fst {bm i : Nat} (hi : i < 64) :
    (bmIndex bm (2 ^ i)).1 = popcount (bm &&& (2 ^ i - 1)) := by
  rw [bmIndex_two_pow hi]

/-- The branch invariant `len(children) == popcount(bitmap)` is preserved
by `Set`, everywhere in the resulting tree. -/
theorem wf_set_preserved :
    ∀ (fuel : Nat) (n : Node K V) (k : K) (v : V) (h off ctr : Nat)
      (n' : Node K V) (ctr' : Nat),
      wf n = true → set fuel n k v h off ctr = some (n', ctr') → wf n' = true := by
  intro fuel
  induction fuel with
  | zero => intro n k v h off ctr n' ctr' _ heq; simp [set] at heq
  | succ fuel ih =>
      intro n k v h off ctr n' ctr' hwf heq
      match n with
      | .leaf a lh lk lv =>
          rw [set] at heq
          by_cases h1 : lh = h
          · rw [if_pos h1] at heq
            cases heq
            rfl
          · rw [if_neg h1] at heq
            by_cases h2 : off > maxOffset
            · rw [if_pos h2] at heq; cases heq
            · rw [if_neg h2] at heq
              simp only [] at heq
              obtain ⟨e, he, hpe⟩ := position_spec lh off
              by_cases h3 : position lh off = position h off
              · rw [if_pos h3] at heq
                cases hrec : set fuel (Node.leaf a lh lk lv) k v h (off + 1) ctr with
                | none => rw [hrec] at heq; cases heq
                | some r =>
                    obtain ⟨nn, c'⟩ := r
                    rw [hrec] at heq
                    simp only [] at heq
                    cases heq
                    have hnn := ih (Node.leaf a lh lk lv) k v h (off + 1) ctr nn c' rfl hrec
                    rw [wf_branch_iff]
                    refine ⟨?_, ?_, ?_⟩
                    · rw [bmNext, Nat.zero_or, hpe]
                      exact Nat.pow_lt_pow_right (by omega) he
                    · rw [bmNext, Nat.zero_or, hpe, popcount_two_pow he]
                      rfl
                    · rw [wfChildren_iff]
                      intro c hc
                      rw [List.mem_singleton.1 hc]
                      exact hnn
              · rw [if_neg h3] at heq
                refine ih (Node.branch ctr (bmNext 0 (position lh off)) [Node.leaf a lh lk lv])
                  k v h off (ctr + 1) n' ctr' ?_ heq
                rw [wf_branch_iff]
                refine ⟨?_, ?_, ?_⟩
                · rw [bmNext, Nat.zero_or, hpe]
                  exact Nat.pow_lt_pow_right (by omega) he
                · rw [bmNext, Nat.zero_or, hpe, popcount_two_pow he]
                  rfl
                · rw [wfChildren_iff]
                  intro c hc
                  rw [List.mem_singleton.1 hc]
                  rfl
      | .collision a' ch es =>
          rw [set] at heq
          by_cases h1 : ch = h
          · rw [if_pos h1] at heq; cases heq; rfl
          · rw [if_neg h1] at heq; cases heq; rfl
      | .branch a bm cs =>
          rw [set] at heq
          by_cases h2 : off > maxOffset
          · rw [if_pos h2] at heq; cases heq
          · rw [if_neg h2] at heq
            simp only [] at heq
            obtain ⟨e, he, hpe⟩ := position_spec h off
            rw [hpe] at heq
            obtain ⟨hbm, hlen, hch⟩ := wf_branch_iff.1 hwf
            by_cases h3 : bmHas bm (2 ^ e) = true
            · rw [if_pos h3] at heq
              cases hat : childAt cs (bmIndex bm (2 ^ e)).1 with
              | none => rw [hat] at heq; cases heq
              | some target =>
                  rw [hat] at heq
                  simp only [] at heq
                  cases hrec : set fuel target k v h off ctr with
                  | none => rw [hrec] at heq; cases heq
                  | some r =>
                      obtain ⟨next, c'⟩ := r
                      rw [hrec] at heq
                      simp only [] at heq
                      have htwf : wf target = true :=
                        wfChildren_iff.1 hch target (childAt_mem hat)
                      have hnwf : wf next = true := ih target k v h off ctr next c' htwf hrec
                      by_cases h4 : next.addrOf = target.addrOf
                      · rw [if_pos h4] at heq
                        cases heq
                        exact hwf
                      · rw [if_neg h4] at heq
                        cases heq
                        rw [wf_branch_iff]
                        refine ⟨hbm, ?_, ?_⟩
                        · rw [replaceNode, List.length_set]
                          exact hlen
                        · rw [wfChildren_iff]
                          intro c hc
                          rcases mem_replaceNode hc with hc | hc
                          · exact wfChildren_iff.1 hch c hc
                          · rw [hc]; exact hnwf
            · rw [if_neg h3] at heq
              cases heq
              have hdisj : bm &&& 2 ^ e = 0 :=
                bmHas_false_and (Bool.eq_false_iff.2 h3)
              have hidx : (bmIndex bm (2 ^ e)).1 ≤ cs.length := by
                rw [bmIndex_fst he, hlen]
                exact popcount_and_le bm _
              rw [wf_branch_iff]
              refine ⟨?_, ?_, ?_⟩
              · rw [bmNext]
                exact Nat.or_lt_two_pow hbm (Nat.pow_lt_pow_right (by omega) he)
              · rw [bmNext, popcount_lor_disjoint hdisj, popcount_two_pow he,
                  insertNode_length _ hidx, hlen]
              · rw [wfChildren_iff]
                intro c hc
                rcases mem_insertNode hc with hc | hc
                · rw [hc]; rfl
                · exact wfChildren_iff.1 hch c hc

/-- The branch invariant is preserved by `Remove`, everywhere in the
resulting tree. -/
theorem wf_remove_aux :
    ∀ (sz : Nat) (n : Node K V), sizeOf n ≤ sz →
      ∀ (h off ctr : Nat) (res : Option (Node K V) × Bool × Nat),
        wf n = true → remove n h off ctr = some res →
        ∀ nn, res.1 = some nn → wf nn = true := by
  intro sz
  induction sz with
  | zero =>
      intro n hsz
      exfalso
      cases n <;> simp at hsz
  | succ sz ih =>
      intro n hsz h off ctr res hwf heq nn hnn
      match n with
      | .leaf a lh lk lv =>
          rw [remove.eq_def] at heq
          simp only [] at heq
          by_cases h1 : lh = h
          · rw [if_pos h1] at heq
            cases heq
            simp at hnn
          · rw [if_neg h1] at heq
            cases heq
            cases hnn
            rfl
      | .collision a ch es =>
          rw [remove.eq_def] at heq
          simp only [] at heq
          by_cases h1 : ch ≠ h
          · rw [if_pos h1] at heq
            cases heq
            cases hnn
            rfl
          · rw [if_neg h1] at heq
            match es, heq with
            | [e], heq => cases heq; simp at hnn
            | [e1, e2], heq => cases heq; cases hnn; rfl
            | e1 :: e2 :: e3 :: rest, heq => cases heq; cases hnn; rfl
      | .branch a bm cs =>
          rw [remove.eq_def] at heq
          simp only [] at heq
          by_cases h2 : off > maxOffset
          · rw [if_pos h2] at heq; cases heq
          · rw [if_neg h2] at heq
            obtain ⟨e, he, hpe⟩ := position_spec h off
            rw [hpe] at heq
            obtain ⟨hbm, hlen, hch⟩ := wf_branch_iff.1 hwf
            by_cases h3 : ¬ bmHas bm (2 ^ e) = true
            · rw [if_pos h3] at heq
              cases heq
              cases hnn
              exact hwf
            · rw [if_neg h3] at heq
              rw [childRemove_eq] at heq
              cases hat : childAt cs (bmIndex bm (2 ^ e)).1 with
              | none => rw [hat] at heq; cases heq
              | some target =>
                  rw [hat] at heq
                  simp only [] at heq
                  cases hrec : remove target h (off + 1) ctr with
                  | none => rw [hrec] at heq; cases heq
                  | some r =>
                      obtain ⟨tnn, tb, tc⟩ := r
                      rw [hrec] at heq
                      simp only [] at heq
                      have htmem := childAt_mem hat
                      have htwf : wf target = true := wfChildren_iff.1 hch target htmem
                      have htsz : sizeOf target ≤ sz := by
                        have hlt : sizeOf target < sizeOf cs := List.sizeOf_lt_of_mem htmem
                        have hszb : sizeOf (Node.branch a bm cs) = 1 + a + bm + sizeOf cs := by
                          simp
                        omega
                      by_cases h4 : ¬ tb = true
                      · rw [if_pos h4] at heq
                        cases heq
                        cases hnn
                        exact hwf
                      · rw [if_neg h4] at heq
                        cases tnn with
                        | some nn₂ =>
                            simp only [] at heq
                            by_cases h5 : nn₂.addrOf = target.addrOf
                            · rw [if_pos h5] at heq
                              cases heq
                              cases hnn
                              exact hwf
                            · rw [if_neg h5] at heq
                              cases heq
                              cases hnn
                              rw [wf_branch_iff]
                              refine ⟨hbm, ?_, ?_⟩
                              · rw [replaceNode, List.length_set]
                                exact hlen
                              · rw [wfChildren_iff]
                                intro c hc
                                rcases mem_replaceNode hc with hc | hc
                                · exact wfChildren_iff.1 hch c hc
                                · rw [hc]
                                  exact ih target htsz h (off + 1) ctr (some nn₂, tb, tc)
                                    htwf hrec nn₂ rfl
                        | none =>
                            simp only [] at heq
                            have hbit : bm.testBit e = true :=
                              bmHas_iff.1 (of_not_not h3)
                            have hidx : (bmIndex bm (2 ^ e)).1 < cs.length := by
                              rw [bmIndex_fst he, hlen]
                              exact popcount_and_lt he hbit
                            by_cases h6 : (removeNode cs (bmIndex bm (2 ^ e)).1).length = 0
                            · rw [if_pos h6] at heq
                              cases heq
                              simp at hnn
                            · rw [if_neg h6] at heq
                              cases heq
                              cases hnn
                              rw [wf_branch_iff]
                              refine ⟨?_, ?_, ?_⟩
                              · have hle : bmWithout bm (2 ^ e) ≤ bm := by
                                  rw [bmWithout]
                                  exact Nat.and_le_left
                                omega
                              · rw [removeNode_length hidx]
                                have hpw := popcount_bmWithout he hbit
                                omega
                              · rw [wfChildren_iff]
                                intro c hc
                                exact wfChildren_iff.1 hch c (mem_removeNode hc)

end Node

/-- C5.  Every `Set` and every `Remove` preserves the branch invariant
`len(children) == popcount(bitmap)` at every branch of the resulting
tree, and the compaction index that aligns `children` with the bitmap is
the number of set bits strictly below the queried bit — children ordered
by ascending bit position, `children[i]` corresponding to the `i`-th
lowest set bit. -/
theorem claim5_branch_invariant :
    (∀ (K V : Type) (fuel : Nat) (n : Node K V) (k : K) (v : V) (h off ctr : Nat)
        (n' : Node K V) (ctr' : Nat),
      Node.wf n = true → Node.set fuel n k v h off ctr = some (n', ctr') →
      Node.wf n' = true) ∧
    (∀ (K V : Type) (n : Node K V) (h off ctr : Nat)
        (res : Option (Node K V) × Bool × Nat),
      Node.wf n = true → Node.remove n h off ctr = some res →
      ∀ nn, res.1 = some nn → Node.wf nn = true) ∧
    (∀ bm i : Nat, i < 64 →
      (bmIndex bm (2 ^ i)).1 = ∑ j ∈ Finset.range i, (if bm.testBit j then 1 else 0)) := by
  refine ⟨fun K V => Node.wf_set_preserved,
    fun K V n h off ctr res => Node.wf_remove_aux (sizeOf n) n (Nat.le_refl _) h off ctr res,
    fun bm i hi => ?_⟩
  rw [Node.bmIndex_fst hi, popcount_eq_sum]
  rw [Finset.sum_congr rfl (fun j _ => by
    rw [Nat.testBit_and, Nat.testBit_two_pow_sub_one])]
  rw [← Finset.sum_filter_add_sum_filter_not (Finset.range 64) (fun j => j < i)]
  have h1 : Finset.filter (fun j => j < i) (Finset.range 64) = Finset.range i := by
    ext j
    simp only [Finset.mem_filter, Finset.mem_range]
    omega
  have h2 : ∀ j ∈ Finset.filter (fun j => ¬ j < i) (Finset.range 64),
      (if (bm.testBit j && decide (j < i)) = true then 1 else 0) = 0 := by
    intro j hj
    obtain ⟨_, hge⟩ := Finset.mem_filter.1 hj
    simp [hge]
  rw [Finset.sum_eq_zero h2, Nat.add_zero, h1]
  refine Finset.sum_congr rfl (fun j hj => ?_)
  have hji : j < i := Finset.mem_range.1 hj
  simp [hji]

/-- Witness for C5 at a concrete insertion: the two-leaf branch
`exampleRoot2` is well-formed, and setting hash 64 into it (which
replaces the occupied slot 0) yields a well-formed tree. -/
theorem claim5_witness :
    Node.wf exampleRoot2 = true ∧ Node.wf exampleRoot3 = true :=
  ⟨rfl, claim5_branch_invariant.1 String Nat 20 exampleRoot2 "k3" 300 64 0 4
    exampleRoot3 9 rfl rfl⟩

/-! ### Removing an absent hash returns the original node -/

namespace Node

variable {K V : Type}

theorem remove_absent_aux :
    ∀ (sz : Nat) (n : Node K V), sizeOf n ≤ sz →
      ∀ (h off ctr : Nat), hashAbsent n h off = true →
        remove n h off ctr = some (some n, false, ctr) := by
  intro sz
  induction sz with
  | zero => intro n hsz; exfalso; cases n <;> simp at hsz
  | succ sz ih =>
      intro n hsz h off ctr habs
      match n with
      | .leaf a lh lk lv =>
          rw [hashAbsent] at habs
          have hne : lh ≠ h := by simpa using habs
          rw [remove.eq_def]
          simp only []
          rw [if_neg hne]
      | .collision a ch es =>
          rw [hashAbsent] at habs
          have hne : ch ≠ h := by simpa using habs
          rw [remove.eq_def]
          simp only []
          rw [if_pos hne]
      | .branch a bm cs =>
          rw [hashAbsent] at habs
          rw [Bool.and_eq_true, Bool.or_eq_true, decide_eq_true_eq] at habs
          obtain ⟨hoff, hcase⟩ := habs
          rw [remove.eq_def]
          simp only []
          rw [if_neg (by omega : ¬ off > maxOffset)]
          by_cases hhas : bmHas bm (position h off) = true
          · have hchild : childAbsent cs (bmIndex bm (position h off)).1 h (off + 1) = true := by
              rcases hcase with hno | hchild
              · rw [hhas] at hno; simp at hno
              · exact hchild
            rw [if_neg (by simp [hhas])]
            rw [childRemove_eq]
            rw [childAbsent_eq] at hchild
            cases hat : childAt cs (bmIndex bm (position h off)).1 with
            | none => rw [hat] at hchild; simp only [] at hchild; cases hchild
            | some c =>
                rw [hat] at hchild
                simp only [] at hchild
                have hcm := childAt_mem hat
                have hcsz : sizeOf c ≤ sz := by
                  have hlt : sizeOf c < sizeOf cs := List.sizeOf_lt_of_mem hcm
                  have hszb : sizeOf (Node.branch a bm cs) = 1 + a + bm + sizeOf cs := by
                    simp
                  omega
                have hrec := ih c hcsz h (off + 1) ctr hchild
                simp only []
                rw [hrec]
                simp only []
                rw [if_pos (by simp)]
          · rw [if_pos (by simpa using hhas)]

end Node

/-- C3.  For every node and every hash absent from it (absence following
the very descent `Remove` performs: a leaf or collision node is keyed by
its stored hash, a branch consults the bitmap and recurses), `Remove`
returns the original node itself — the same allocation, not a copy —
with `removed = false` and no new allocations.  Together with the fact
that every other branch of `Get`/`Set`/`Remove` in the embedding returns
a fully built value, no partially mutated structure is ever observable. -/
theorem claim3_remove_absent_returns_self :
    ∀ (K V : Type) (n : Node K V) (h off ctr : Nat),
      Node.hashAbsent n h off = true →
      Node.remove n h off ctr = some (some n, false, ctr) :=
  fun _ _ n h off ctr habs =>
    Node.remove_absent_aux (sizeOf n) n (Nat.le_refl _) h off ctr habs

/-- Witness for C3: hash 7 is absent from the two-leaf branch
`exampleRoot2` (its leaves hold hashes 0 and 1), and `Remove` returns the
branch itself unchanged. -/
theorem claim3_witness :
    Node.remove exampleRoot2 7 0 5 = some (some exampleRoot2, false, 5) :=
  claim3_remove_absent_returns_self String Nat exampleRoot2 7 0 5 rfl

/-! ### Structural sharing of untouched siblings under Set -/

/-- C9.  A `Set` that hits an occupied slot of a branch returns either
the branch itself or a branch with the same bitmap whose children array
agrees with the original on every index except the touched one — the
untouched siblings are the identical child objects (same allocation
tags), shared rather than copied. -/
theorem claim9_set_shares_untouched_siblings :
    ∀ (K V : Type) (fuel a bm : Nat) (cs : List (Node K V)) (k : K) (v : V)
      (h off ctr : Nat) (n' : Node K V) (ctr' : Nat),
      bmHas bm (position h off) = true →
      Node.set fuel (.branch a bm cs) k v h off ctr = some (n', ctr') →
      ∃ a' cs', n' = .branch a' bm cs' ∧ cs'.length = cs.length ∧
        ∀ j, j ≠ (bmIndex bm (position h off)).1 → cs'[j]? = cs[j]? := by
  intro K V fuel a bm cs k v h off ctr n' ctr' hhas heq
  match fuel with
  | 0 => simp [Node.set] at heq
  | fuel + 1 =>
      rw [Node.set] at heq
      by_cases h2 : off > maxOffset
      · rw [if_pos h2] at heq; cases heq
      · rw [if_neg h2] at heq
        simp only [] at heq
        rw [if_pos hhas] at heq
        cases hat : Node.childAt cs (bmIndex bm (position h off)).1 with
        | none => rw [hat] at heq; cases heq
        | some target =>
            rw [hat] at heq
            simp only [] at heq
            cases hrec : Node.set fuel target k v h off ctr with
            | none => rw [hrec] at heq; cases heq
            | some r =>
                obtain ⟨next, c'⟩ := r
                rw [hrec] at heq
                simp only [] at heq
                by_cases h4 : next.addrOf = target.addrOf
                · rw [if_pos h4] at heq
                  cases heq
                  exact ⟨a, cs, rfl, rfl, fun j _ => rfl⟩
                · rw [if_neg h4] at heq
                  cases heq
                  refine ⟨c', Node.replaceNode cs (bmIndex bm (position h off)).1 next,
                    rfl, ?_, ?_⟩
                  · rw [Node.replaceNode, List.length_set]
                  · intro j hj
                    rw [Node.replaceNode]
                    exact List.getElem?_set_ne (fun hij => hj hij.symm)

/-- Witness for C9: setting hash 64 into `exampleRoot2` replaces occupied
slot 0; the sibling leaf at index 1 is untouched and shared. -/
theorem claim9_witness :
    ∃ a' cs', exampleRoot3 = Node.branch a' 3 cs' ∧
      cs'.length = [Node.leaf 0 0 "k1" (100 : Nat), Node.leaf 2 1 "k2" 200].length ∧
      ∀ j, j ≠ (bmIndex 3 (position 64 0)).1 →
        cs'[j]? = [Node.leaf 0 0 "k1" (100 : Nat), Node.leaf 2 1 "k2" 200][j]? :=
  claim9_set_shares_untouched_siblings String Nat 20 3 3
    [Node.leaf 0 0 "k1" 100, Node.leaf 2 1 "k2" 200] "k3" 300 64 0 4
    exampleRoot3 9 rfl rfl

end StructFactory
